import Mathlib

/-!
Verification of the nodevers version manager (src/nodevers/shared.py and
src/nodevers/remove.py) against its specification.

The Python code is shallowly embedded: the filesystem state that the
activation / registry operations touch is made explicit (`LinkFS` for the
versions directory and the active-link symlink, `PFS` for the prefix-layout
operations), subprocess output is passed in as data, and each embedded
function additionally records the trace of externally visible filesystem
events (`Ev`) it performs, in order, so that ordering claims
("the unlink precedes the deletion") can be stated.
-/

namespace Nodevers

/-- Exceptions raised by the embedded code.
`noSuchVersion` is shared.NoSuchVersionError, `missingTool` is
shared.MissingToolError, `osError` stands for Python's OSError (from
subprocess invocation, shutil.rmtree, os.makedirs), and `attributeError`
is the AttributeError raised by `match.group(1)` when `match is None`. -/
inductive Err : Type
  | noSuchVersion
  | missingTool
  | osError
  | attributeError
deriving DecidableEq

/-- Externally visible filesystem / subprocess events, recorded in
chronological order by the embedded operations:
`nodeInvoke` is the `subprocess.Popen(["node", "-v"])` call in
shared.current_version; `lookup v` is a call to shared.version_exists(v)
(an os.path.isdir probe of the version directory); `unlinkBin` is
`os.unlink(get_bin_dir())`; `symlinkBin t` is `os.symlink(t, get_bin_dir())`;
`rmtree p` is `shutil.rmtree(p)`. -/
inductive Ev : Type
  | nodeInvoke
  | lookup (ver : String)
  | unlinkBin
  | symlinkBin (target : String)
  | rmtree (path : String)
deriving DecidableEq

/-- The filesystem state seen by the registry and activation operations:
`versions` is the list of directory names under `<pfx>/versions`, and
`binLink` is the target of the `<pfx>/bin` symlink (`none` when the link
is absent, i.e. "system" mode). -/
structure LinkFS : Type where
  versions : List String
  binLink : Option String
deriving DecidableEq

/-- shared.get_versions_dir, parameterised by the nodevers prefix
(the source reads the prefix from the environment once per process). -/
def get_versions_dir (pfx : String) : String := pfx ++ "/versions"

/-- shared.get_bin_dir: the path at which the active link is created. -/
def get_bin_dir (pfx : String) : String := pfx ++ "/bin"

/-- shared.get_version_dir: `os.path.join(get_versions_dir(), ver)`. -/
def get_version_dir (pfx ver : String) : String :=
  get_versions_dir pfx ++ "/" ++ ver

/-- shared.get_patches_dir. -/
def get_patches_dir (pfx : String) : String := pfx ++ "/patches"

/-- shared.version_exists: `os.path.isdir(get_version_dir(ver))`, i.e. the
version directory is present under `versions/`. -/
def version_exists (ver : String) (fs : LinkFS) : Bool :=
  fs.versions.contains ver

/-- Splits a character list into its maximal leading run of decimal digits
and the rest; this is how a greedy `\d+` group followed by a non-digit
context matches in Python's `re`. -/
def takeDigits : List Char → List Char × List Char
  | [] => ([], [])
  | c :: cs =>
    if c.isDigit then
      let p := takeDigits cs
      (c :: p.1, p.2)
    else ([], c :: cs)

/-- One `\d+\.` step of the version regex: consume a nonempty maximal digit
run followed by a literal dot, returning the remainder, `none` when the
step does not match.  (Greedy matching of `\d+` is exact here: backtracking
a digit run leaves a digit where the literal `.` is required, so it can
never produce a match the maximal run misses.) -/
def matchDigitsDot (l : List Char) : Option (List Char) :=
  let p := takeDigits l
  if p.1.isEmpty then none
  else
    match p.2 with
    | c :: r => if c = '.' then some r else none
    | [] => none

/-- The match of Python's `re.match("^(\d+)\.(\d+)\.(\d+)$", ver)` on the
character list of `ver`: two `\d+\.` steps, then a final nonempty digit
run, after which Python's `$` must match — `$` matches at the end of the
string or just before a single newline at the end of the string, hence the
two accepted remainders. -/
def matchVVS (l : List Char) : Bool :=
  match matchDigitsDot l with
  | none => false
  | some r2 =>
    match matchDigitsDot r2 with
    | none => false
    | some r4 =>
      if (takeDigits r4).1.isEmpty then false
      else if (takeDigits r4).2 = [] then true
      else if (takeDigits r4).2 = ['\n'] then true
      else false

/-- shared.valid_version_string: true iff
`re.match("^(\d+)\.(\d+)\.(\d+)$", ver)` is not None. -/
def valid_version_string (ver : String) : Bool := matchVVS ver.data

/-- The spec's reading of the same pattern, with `$` taken as a strict
end-of-string anchor (no trailing-newline allowance); used to compare the
specification's words with the code's Python regex semantics. -/
def specAnchoredVersionMatch (ver : String) : Bool :=
  match matchDigitsDot ver.data with
  | none => false
  | some r2 =>
    match matchDigitsDot r2 with
    | none => false
    | some r4 =>
      if (takeDigits r4).1.isEmpty then false
      else (takeDigits r4).2.isEmpty

/-- Result of a stateful operation on `LinkFS`: on success the new state and
the chronological event trace; on an exception, the exception together with
the state and trace at the moment it was raised (Python exceptions do not
roll anything back). -/
abbrev LinkRes := Except (Err × LinkFS × List Ev) (LinkFS × List Ev)

/-- shared.link_to: in "system" mode remove the active link if it exists;
for an installed version remove the active link if it exists and then
symlink `<pfx>/bin` to `<versions>/<ver>/bin`; otherwise raise
NoSuchVersionError.  The `os.path.lexists` test is `fs.binLink.isSome`. -/
def link_to (pfx ver : String) (fs : LinkFS) : LinkRes :=
  if ver = "system" then
    if fs.binLink.isSome then
      .ok ({ fs with binLink := none }, [.unlinkBin])
    else
      .ok (fs, [])
  else if version_exists ver fs then
    let unlinkEv : List Ev := if fs.binLink.isSome then [.unlinkBin] else []
    let version_bin_dir := get_version_dir pfx ver ++ "/bin"
    .ok ({ fs with binLink := some version_bin_dir },
         .lookup ver :: (unlinkEv ++ [.symlinkBin version_bin_dir]))
  else
    .error (.noSuchVersion, fs, [.lookup ver])

/-- The match of `re.match("v(\d+\.\d+\.\d+)", out)` in
shared.current_version: a prefix match anchored at the start only; returns
group 1 when the output starts with `v` followed by three dot-separated
nonempty digit runs (each run maximal; nothing is required after the third
run). -/
def parseNodeVersion (out : String) : Option String :=
  match out.data with
  | 'v' :: rest =>
    match takeDigits rest with
    | ([], _) => none
    | (a, '.' :: r2) =>
      match takeDigits r2 with
      | ([], _) => none
      | (b, '.' :: r4) =>
        match takeDigits r4 with
        | ([], _) => none
        | (c, _) => some (String.mk (a ++ '.' :: (b ++ '.' :: c)))
      | _ => none
    | _ => none
  | _ => none

/-- shared.current_version: runs `node -v` and parses the output.
`nodeOut` is `none` when the `node` executable cannot be invoked (Popen
raises OSError), otherwise the captured stdout.  When the output does not
match, `match.group(1)` raises AttributeError on `None`. -/
def current_version (nodeOut : Option String) : Except Err String :=
  match nodeOut with
  | none => .error .osError
  | some out =>
    match parseNodeVersion out with
    | none => .error .attributeError
    | some v => .ok v

/-- remove.remove: compare `ver` with the discovered current version, switch
the active link to "system" when they are equal, then
`shutil.rmtree(get_version_dir(ver))` (which raises OSError when the
directory does not exist).

Modelled from the spec: the modules nodevers.use and nodevers.version that
remove.py imports are not among the sources; per §4.5 of the spec their
`use.link_to` and `version.current_version` are the Activation Manager's
activate and currently-active operations, which are the `link_to` and
`current_version` functions of shared.py embedded above, so the calls
delegate to those. -/
def remove (pfx ver : String) (nodeOut : Option String) (fs : LinkFS) :
    LinkRes :=
  match current_version nodeOut with
  | .error e => .error (e, fs, [.nodeInvoke])
  | .ok cur =>
    match (if ver = cur then link_to pfx "system" fs else .ok (fs, [])) with
    | .error (e, fs1, tr1) => .error (e, fs1, .nodeInvoke :: tr1)
    | .ok (fs1, tr1) =>
      if version_exists ver fs1 then
        .ok ({ fs1 with versions := fs1.versions.erase ver },
             .nodeInvoke :: (tr1 ++ [.rmtree (get_version_dir pfx ver)]))
      else
        .error (.osError, fs1, .nodeInvoke :: tr1)

/-- What remove.parse reports on the path that is modelled. -/
inductive RemoveMsg : Type
  | removed
  | notInstalled
deriving DecidableEq

/-- remove.parse, on the path where a single non-option argument `ver` was
given (no `-h`/`--help`, no getopt error): it consults
shared.version_exists(args[0]) directly — there is no
valid_version_string check anywhere in remove.py — and either calls
remove(args[0]) or prints "There is no such version installed.". -/
def parse (pfx ver : String) (nodeOut : Option String) (fs : LinkFS) :
    Except (Err × LinkFS × List Ev) (LinkFS × List Ev × RemoveMsg) :=
  if version_exists ver fs then
    match remove pfx ver nodeOut fs with
    | .error (e, fs1, tr) => .error (e, fs1, .lookup ver :: tr)
    | .ok (fs1, tr) => .ok (fs1, .lookup ver :: tr, .removed)
  else
    .ok (fs, [.lookup ver], .notInstalled)

/-- The event trace of a `parse` run, successful or not. -/
def parseTrace (pfx ver : String) (nodeOut : Option String) (fs : LinkFS) :
    List Ev :=
  match parse pfx ver nodeOut fs with
  | .error (_, _, tr) => tr
  | .ok (_, tr, _) => tr

/-- shared.__try_python: invoke `candidate -V`, read stderr and match it
against `re.match("Python (2\.[67]\.\d+)", ver)` — a prefix match requiring
`Python 2.6.` or `Python 2.7.` followed by at least one digit.  `world`
maps an executable name to its captured stderr, or `none` when invoking it
raises OSError (missing executable); either failure yields `false`. -/
def tryPython (world : String → Option String) (candidate : String) : Bool :=
  match world candidate with
  | none => false
  | some out =>
    match out.data with
    | 'P' :: 'y' :: 't' :: 'h' :: 'o' :: 'n' :: ' ' :: '2' :: '.' :: c :: '.' :: d :: _ =>
      (c = '6' || c = '7') && d.isDigit
    | _ => false

/-- shared.python: try the candidates `"python"` then `"python2"` in order
and return the first that passes `tryPython`, raising MissingToolError when
neither does.  The second component records which candidates were actually
probed, in order. -/
def python (world : String → Option String) :
    Except Err String × List String :=
  if tryPython world "python" then
    (.ok "python", ["python"])
  else if tryPython world "python2" then
    (.ok "python2", ["python", "python2"])
  else
    (.error .missingTool, ["python", "python2"])

/-- The directory listings the patch-set resolver reads:
`listing dir` is `some entries` (each entry an `os.listdir` name paired with
the result of `os.path.isdir` on it) when `dir` is a directory, and `none`
when it is absent or not a directory (in which case `os.listdir` raises
OSError and `os.path.isdir` is false). -/
structure PatchWorld : Type where
  listing : String → Option (List (String × Bool))

/-- shared.get_patches_list: append the non-directory entries of
`patches/global` (listed unconditionally; OSError if it is missing), then,
only if `patches/<ver>` is a directory, its non-directory entries. -/
def get_patches_list (pfx ver : String) (w : PatchWorld) :
    Except Err (List String) :=
  let global_patch_dir := get_patches_dir pfx ++ "/global"
  let version_patch_dir := get_patches_dir pfx ++ "/" ++ ver
  match w.listing global_patch_dir with
  | none => .error .osError
  | some ges =>
    let globs := (ges.filter (fun e => !e.2)).map
      (fun e => global_patch_dir ++ "/" ++ e.1)
    match w.listing version_patch_dir with
    | none => .ok globs
    | some ves =>
      .ok (globs ++ (ves.filter (fun e => !e.2)).map
        (fun e => version_patch_dir ++ "/" ++ e.1))

/-!
The prefix-layout operations (shared.valid_nodevers_pfx and
shared.mknodevers_pfx) act on arbitrary directory trees, so they get a
richer filesystem model: a path is its list of components, and the state is
the set of existing directories and regular files.
-/

/-- A filesystem path, as its list of components. -/
abbrev FPath := List String

/-- A directory tree: the paths that exist as directories and the paths
that exist as regular files. -/
structure PFS : Type where
  dirs : List FPath
  files : List FPath
deriving DecidableEq

/-- os.path.exists. -/
def pathExists (fs : PFS) (p : FPath) : Bool :=
  fs.dirs.contains p || fs.files.contains p

/-- os.mkdir: fails if the path already exists (EEXIST) or its parent is
not an existing directory (ENOENT/ENOTDIR). -/
def mkdir (p : FPath) (fs : PFS) : Except Err PFS :=
  if pathExists fs p then .error .osError
  else if p.dropLast.isEmpty || fs.dirs.contains p.dropLast then
    .ok ⟨p :: fs.dirs, fs.files⟩
  else .error .osError

/-- The recursion of os.makedirs, structurally on the reversed path: make
the parent first when it does not exist, then mkdir the path itself
(`(c :: rest).reverse = rest.reverse ++ [c]`, whose parent is
`rest.reverse`). -/
def makedirsRev : List String → PFS → Except Err PFS
  | [], _ => .error .osError
  | c :: rest, fs =>
    if rest.isEmpty || pathExists fs rest.reverse then
      mkdir (rest.reverse ++ [c]) fs
    else
      match makedirsRev rest fs with
      | .error e => .error e
      | .ok fs1 => mkdir (rest.reverse ++ [c]) fs1

/-- os.makedirs: create the leaf directory and any missing ancestors. -/
def makedirs (p : FPath) (fs : PFS) : Except Err PFS :=
  makedirsRev p.reverse fs

/-- shutil.rmtree: remove the directory and everything beneath it; raises
OSError when the path is not a directory (including when it is a regular
file or missing). -/
def rmtree (root : FPath) (fs : PFS) : Except Err PFS :=
  if fs.dirs.contains root then
    .ok ⟨fs.dirs.filter (fun d => !(root.isPrefixOf d)),
         fs.files.filter (fun f => !(root.isPrefixOf f))⟩
  else .error .osError

/-- The `dirs` list shared by shared.valid_nodevers_pfx and
shared.mknodevers_pfx: `versions`, `tmp`, `patches`,
`os.path.join("patches", "global")`. -/
def nodeversSubdirs : List FPath :=
  [["versions"], ["tmp"], ["patches"], ["patches", "global"]]

/-- shared.valid_nodevers_pfx: every required subdirectory passes
os.path.isdir. -/
def valid_nodevers_pfx (path : FPath) (fs : PFS) : Bool :=
  nodeversSubdirs.all (fun d => fs.dirs.contains (path ++ d))

/-- The `for i in dirs: os.makedirs(os.path.join(path, i))` loop of
shared.mknodevers_pfx. -/
def makeSubdirs (path : FPath) : List FPath → PFS → Except Err PFS
  | [], fs => .ok fs
  | d :: ds, fs =>
    match makedirs (path ++ d) fs with
    | .error e => .error e
    | .ok fs1 => makeSubdirs path ds fs1

/-- shared.mknodevers_pfx: `shutil.rmtree(path)` when
`os.path.exists(path)`, then `os.makedirs` of each required subdirectory
in order. -/
def mknodevers_pfx (path : FPath) (fs : PFS) : Except Err PFS :=
  match (if pathExists fs path then rmtree path fs else .ok fs) with
  | .error e => .error e
  | .ok fs0 => makeSubdirs path nodeversSubdirs fs0

/-! ## Supporting lemmas -/

theorem takeDigits_decomp (l : List Char) :
    (takeDigits l).1 ++ (takeDigits l).2 = l ∧
    (∀ ch ∈ (takeDigits l).1, ch.isDigit = true) ∧
    (∀ ch, (takeDigits l).2.head? = some ch → ch.isDigit = false) := by
  induction l with
  | nil => simp [takeDigits]
  | cons c cs ih =>
    by_cases hc : c.isDigit
    · simp only [takeDigits, hc, if_pos]
      refine ⟨by simp [ih.1], ?_, ih.2.2⟩
      intro ch hch
      rcases List.mem_cons.mp hch with rfl | hch
      · exact hc
      · exact ih.2.1 ch hch
    · simp only [takeDigits, hc]
      refine ⟨rfl, by simp, ?_⟩
      intro ch hch
      obtain rfl := Option.some.inj hch
      exact Bool.eq_false_iff.mpr hc

theorem takeDigits_append_of (a r : List Char)
    (ha : ∀ ch ∈ a, ch.isDigit = true)
    (hr : ∀ ch, r.head? = some ch → ch.isDigit = false) :
    takeDigits (a ++ r) = (a, r) := by
  induction a with
  | nil =>
    cases r with
    | nil => rfl
    | cons c cs => simp [takeDigits, hr c rfl]
  | cons c cs ih =>
    have hc : c.isDigit = true := ha c (by simp)
    have ihr := ih (fun ch h => ha ch (by simp [h]))
    simp [takeDigits, hc, ihr]

theorem matchDigitsDot_some_iff (l r : List Char) :
    matchDigitsDot l = some r ↔
      ∃ a, l = a ++ '.' :: r ∧ a ≠ [] ∧ ∀ ch ∈ a, ch.isDigit = true := by
  constructor
  · intro h
    unfold matchDigitsDot at h
    by_cases he : (takeDigits l).1.isEmpty
    · rw [if_pos he] at h; cases h
    · rw [if_neg he] at h
      obtain ⟨hdec, hdig, -⟩ := takeDigits_decomp l
      cases h2 : (takeDigits l).2 with
      | nil => rw [h2] at h; cases h
      | cons c rest =>
        rw [h2] at h
        change (if c = '.' then some rest else none) = some r at h
        by_cases hc : c = '.'
        · rw [if_pos hc] at h
          obtain rfl := Option.some.inj h
          subst hc
          rw [h2] at hdec
          exact ⟨(takeDigits l).1, hdec.symm,
            fun hnil => he (by simp [hnil]), hdig⟩
        · rw [if_neg hc] at h; cases h
  · rintro ⟨a, rfl, hane, hadig⟩
    have htd : takeDigits (a ++ '.' :: r) = (a, '.' :: r) :=
      takeDigits_append_of a ('.' :: r) hadig
        (by intro ch hch
            simp only [List.head?_cons, Option.some.injEq] at hch
            subst hch
            decide)
    unfold matchDigitsDot
    rw [htd]
    simp [hane]

theorem version_exists_of_mem {ver : String} {fs : LinkFS}
    (h : ver ∈ fs.versions) : version_exists ver fs = true := by
  simpa [version_exists] using h

theorem isPrefixOf_eq_true_iff (l₁ l₂ : List String) :
    l₁.isPrefixOf l₂ = true ↔ ∃ u, l₁ ++ u = l₂ := by
  induction l₁ generalizing l₂ with
  | nil => simp [List.isPrefixOf]
  | cons a as ih =>
    cases l₂ with
    | nil => simp [List.isPrefixOf]
    | cons b bs => simp [List.isPrefixOf, ih bs]

theorem append_eq_single {α : Type _} {u v : List α} {a : α}
    (h : u ++ v = [a]) : u = [] ∨ u = [a] := by
  cases u with
  | nil => exact Or.inl rfl
  | cons x u' =>
    simp only [List.cons_append, List.cons.injEq] at h
    obtain ⟨rfl, h⟩ := h
    cases u' with
    | nil => exact Or.inr rfl
    | cons y u'' => simp at h

theorem append_eq_pair {α : Type _} {u v : List α} {a b : α}
    (h : u ++ v = [a, b]) : u = [] ∨ u = [a] ∨ u = [a, b] := by
  cases u with
  | nil => exact Or.inl rfl
  | cons x u' =>
    simp only [List.cons_append, List.cons.injEq] at h
    obtain ⟨rfl, h⟩ := h
    rcases append_eq_single h with rfl | rfl
    · exact Or.inr (Or.inl rfl)
    · exact Or.inr (Or.inr rfl)

theorem mkdir_ok {p : FPath} {fs fs' : PFS} (h : mkdir p fs = .ok fs') :
    fs'.dirs = p :: fs.dirs ∧ fs'.files = fs.files := by
  unfold mkdir at h
  by_cases h1 : pathExists fs p = true
  · rw [if_pos h1] at h; cases h
  · rw [if_neg h1] at h
    by_cases h2 : (p.dropLast.isEmpty || fs.dirs.contains p.dropLast) = true
    · rw [if_pos h2] at h
      obtain rfl := Except.ok.inj h
      exact ⟨rfl, rfl⟩
    · rw [if_neg h2] at h; cases h

theorem makedirsRev_ok : ∀ (l : List String) {fs fs' : PFS},
    makedirsRev l fs = .ok fs' →
    (∀ d ∈ fs.dirs, d ∈ fs'.dirs) ∧
    l.reverse ∈ fs'.dirs ∧
    fs'.files = fs.files ∧
    (∀ d ∈ fs'.dirs, d ∈ fs.dirs ∨ ∃ u, d ++ u = l.reverse) := by
  intro l
  induction l with
  | nil => intro fs fs' h; cases h
  | cons c rest ih =>
    intro fs fs' h
    unfold makedirsRev at h
    by_cases h1 : (rest.isEmpty || pathExists fs rest.reverse) = true
    · rw [if_pos h1] at h
      obtain ⟨hd, hf⟩ := mkdir_ok h
      refine ⟨?_, ?_, hf, ?_⟩
      · intro d hdm; rw [hd]; exact List.mem_cons_of_mem _ hdm
      · rw [hd]; simp [List.reverse_cons]
      · intro d hdm
        rw [hd] at hdm
        rcases List.mem_cons.mp hdm with rfl | hdm
        · exact Or.inr ⟨[], by simp [List.reverse_cons]⟩
        · exact Or.inl hdm
    · rw [if_neg h1] at h
      cases hrec : makedirsRev rest fs with
      | error e => rw [hrec] at h; cases h
      | ok fs1 =>
        rw [hrec] at h
        obtain ⟨hpres, hmem, hfiles, hadd⟩ := ih hrec
        obtain ⟨hd, hf⟩ := mkdir_ok h
        refine ⟨?_, ?_, by rw [hf, hfiles], ?_⟩
        · intro d hdm; rw [hd]; exact List.mem_cons_of_mem _ (hpres d hdm)
        · rw [hd]; simp [List.reverse_cons]
        · intro d hdm
          rw [hd] at hdm
          rcases List.mem_cons.mp hdm with rfl | hdm
          · exact Or.inr ⟨[], by simp [List.reverse_cons]⟩
          · rcases hadd d hdm with hin | ⟨u, hu⟩
            · exact Or.inl hin
            · refine Or.inr ⟨u ++ [c], ?_⟩
              rw [List.reverse_cons, ← hu, List.append_assoc]

theorem makedirs_ok {p : FPath} {fs fs' : PFS} (h : makedirs p fs = .ok fs') :
    (∀ d ∈ fs.dirs, d ∈ fs'.dirs) ∧
    p ∈ fs'.dirs ∧
    fs'.files = fs.files ∧
    (∀ d ∈ fs'.dirs, d ∈ fs.dirs ∨ ∃ u, d ++ u = p) := by
  have h2 : makedirsRev p.reverse fs = .ok fs' := h
  have h3 := makedirsRev_ok p.reverse h2
  rw [List.reverse_reverse] at h3
  exact h3

theorem rmtree_ok {root : FPath} {fs fs' : PFS}
    (h : rmtree root fs = .ok fs') :
    fs'.dirs = fs.dirs.filter (fun d => !(root.isPrefixOf d)) ∧
    fs'.files = fs.files.filter (fun f => !(root.isPrefixOf f)) := by
  unfold rmtree at h
  by_cases h1 : fs.dirs.contains root = true
  · rw [if_pos h1] at h
    obtain rfl := Except.ok.inj h
    exact ⟨rfl, rfl⟩
  · rw [if_neg h1] at h; cases h

theorem makeSubdirs_ok : ∀ (ds : List FPath) {path : FPath} {fs fs' : PFS},
    makeSubdirs path ds fs = .ok fs' →
    (∀ d ∈ fs.dirs, d ∈ fs'.dirs) ∧
    (∀ d ∈ ds, path ++ d ∈ fs'.dirs) ∧
    fs'.files = fs.files ∧
    (∀ x ∈ fs'.dirs, x ∈ fs.dirs ∨ ∃ d ∈ ds, ∃ u, x ++ u = path ++ d) := by
  intro ds
  induction ds with
  | nil =>
    intro path fs fs' h
    obtain rfl := Except.ok.inj h
    simp
  | cons d ds ih =>
    intro path fs fs' h
    unfold makeSubdirs at h
    cases h1 : makedirs (path ++ d) fs with
    | error e => rw [h1] at h; cases h
    | ok fs1 =>
      rw [h1] at h
      obtain ⟨hpres1, hmem1, hfiles1, hadd1⟩ := makedirs_ok h1
      obtain ⟨hpres2, hmem2, hfiles2, hadd2⟩ := ih h
      refine ⟨fun x hx => hpres2 x (hpres1 x hx), ?_,
        by rw [hfiles2, hfiles1], ?_⟩
      · intro e he
        rcases List.mem_cons.mp he with rfl | he
        · exact hpres2 _ hmem1
        · exact hmem2 e he
      · intro x hx
        rcases hadd2 x hx with hx1 | ⟨dd, hdd, u, hu⟩
        · rcases hadd1 x hx1 with hx0 | ⟨u, hu⟩
          · exact Or.inl hx0
          · exact Or.inr ⟨d, List.mem_cons_self .., u, hu⟩
        · exact Or.inr ⟨dd, List.mem_cons_of_mem _ hdd, u, hu⟩

theorem version_exists_eq_false {ver : String} {fs : LinkFS}
    (h : ver ∉ fs.versions) : version_exists ver fs = false := by
  simpa [version_exists] using h

/-! ## Claims -/

/-- C3 counterexample: "1.2.3\n" has trailing whitespace and is not an
anchored match of the pattern when `$` is read as a strict end-of-string
anchor, yet valid_version_string accepts it, because Python's `$` also
matches just before a single newline at the end of the string. -/
theorem valid_version_string_trailing_newline_cex :
    valid_version_string "1.2.3\n" = true ∧
    specAnchoredVersionMatch "1.2.3\n" = false :=
  ⟨rfl, rfl⟩

/-- C3 amended: valid_version_string accepts exactly the strings made of
three dot-separated nonempty decimal digit groups, optionally followed by
one single trailing newline; everything else (empty, wrong component
count, non-numeric groups, a leading "v", any other trailing whitespace)
is rejected. -/
theorem valid_version_string_characterisation (s : String) :
    valid_version_string s = true ↔
      ∃ a b c t : List Char,
        s.data = a ++ '.' :: (b ++ '.' :: (c ++ t)) ∧
        a ≠ [] ∧ b ≠ [] ∧ c ≠ [] ∧
        (∀ ch ∈ a, ch.isDigit = true) ∧
        (∀ ch ∈ b, ch.isDigit = true) ∧
        (∀ ch ∈ c, ch.isDigit = true) ∧
        (t = [] ∨ t = ['\n']) := by
  unfold valid_version_string matchVVS
  constructor
  · intro h
    cases h1 : matchDigitsDot s.data with
    | none => rw [h1] at h; exact Bool.noConfusion h
    | some r2 =>
      simp only [h1] at h
      cases h2 : matchDigitsDot r2 with
      | none => simp only [h2] at h; exact Bool.noConfusion h
      | some r4 =>
        simp only [h2] at h
        obtain ⟨a, hla, hane, hadig⟩ := (matchDigitsDot_some_iff _ _).mp h1
        obtain ⟨b, hlb, hbne, hbdig⟩ := (matchDigitsDot_some_iff _ _).mp h2
        by_cases hpe : (takeDigits r4).1.isEmpty
        · rw [if_pos hpe] at h; exact Bool.noConfusion h
        · rw [if_neg hpe] at h
          obtain ⟨hdec, hdig, -⟩ := takeDigits_decomp r4
          have ht : (takeDigits r4).2 = [] ∨ (takeDigits r4).2 = ['\n'] := by
            by_cases ht0 : (takeDigits r4).2 = []
            · exact Or.inl ht0
            · rw [if_neg ht0] at h
              by_cases ht1 : (takeDigits r4).2 = ['\n']
              · exact Or.inr ht1
              · rw [if_neg ht1] at h; exact Bool.noConfusion h
          refine ⟨a, b, (takeDigits r4).1, (takeDigits r4).2,
            ?_, hane, hbne, fun hnil => hpe (by simp [hnil]),
            hadig, hbdig, hdig, ht⟩
          rw [hla, hlb, hdec]
  · rintro ⟨a, b, c, t, hs, hane, hbne, hcne, hadig, hbdig, hcdig, ht⟩
    have h1 : matchDigitsDot s.data = some (b ++ '.' :: (c ++ t)) :=
      (matchDigitsDot_some_iff _ _).mpr ⟨a, hs, hane, hadig⟩
    have h2 : matchDigitsDot (b ++ '.' :: (c ++ t)) = some (c ++ t) :=
      (matchDigitsDot_some_iff _ _).mpr ⟨b, rfl, hbne, hbdig⟩
    simp only [h1, h2]
    have htd : takeDigits (c ++ t) = (c, t) := by
      refine takeDigits_append_of c t hcdig ?_
      intro ch hch
      rcases ht with rfl | rfl
      · cases hch
      · obtain rfl := Option.some.inj hch
        decide
    rw [htd]
    rcases ht with rfl | rfl <;> simp [hcne]

/-- C6: `link_to "system"` is idempotent: it leaves the active link absent,
and run again from that state it succeeds, performing no unlink (empty
event trace) and raising no error. -/
theorem activate_system_idempotent (pfx : String) (fs : LinkFS) :
    ∃ fs1 tr1, link_to pfx "system" fs = .ok (fs1, tr1) ∧
      fs1.binLink = none ∧
      link_to pfx "system" fs1 = .ok (fs1, []) := by
  cases h : fs.binLink with
  | none =>
    refine ⟨fs, [], ?_, h, ?_⟩ <;> simp [link_to, h]
  | some t =>
    refine ⟨{ fs with binLink := none }, [.unlinkBin], ?_, rfl, ?_⟩ <;>
      simp [link_to, h]

/-- C7: the interpreter probe tries `"python"` then `"python2"` in order;
the first matching candidate wins without the second being probed, and when
neither candidate passes (not invocable, or banner not Python 2.6.x/2.7.x)
it raises MissingToolError instead of returning a name. -/
theorem python_probe_order (world : String → Option String) :
    (tryPython world "python" = true →
      python world = (.ok "python", ["python"])) ∧
    (tryPython world "python" = false → tryPython world "python2" = true →
      python world = (.ok "python2", ["python", "python2"])) ∧
    (tryPython world "python" = false → tryPython world "python2" = false →
      python world = (.error .missingTool, ["python", "python2"])) := by
  refine ⟨fun h1 => ?_, fun h1 h2 => ?_, fun h1 h2 => ?_⟩ <;>
    simp [python, *]

/-- Witness for C7, with neither interpreter invocable. -/
theorem python_probe_order_witness :
    python (fun _ => none) = (.error .missingTool, ["python", "python2"]) :=
  (python_probe_order (fun _ => none)).2.2 rfl rfl

/-- C2: for a version with no directory under `versions/`, version_exists
is false, link_to raises NoSuchVersionError without touching the state
(the active link is untouched), and the remove command reports
"not installed" with the state unchanged and no mutating event. -/
theorem not_installed_rejected (pfx ver : String) (nodeOut : Option String)
    (fs : LinkFS) (hmem : ver ∉ fs.versions) (hsys : ver ≠ "system") :
    version_exists ver fs = false ∧
    link_to pfx ver fs = .error (.noSuchVersion, fs, [.lookup ver]) ∧
    parse pfx ver nodeOut fs = .ok (fs, [.lookup ver], .notInstalled) := by
  have hex := version_exists_eq_false hmem
  refine ⟨hex, ?_, ?_⟩
  · simp [link_to, hsys, hex]
  · simp [parse, hex]

/-- Witness for C2 on a concrete registry holding only 1.0.0. -/
theorem not_installed_rejected_witness :
    version_exists "9.9.9" ⟨["1.0.0"], some "/p/versions/1.0.0/bin"⟩ = false ∧
    link_to "/p" "9.9.9" ⟨["1.0.0"], some "/p/versions/1.0.0/bin"⟩ =
      .error (.noSuchVersion, ⟨["1.0.0"], some "/p/versions/1.0.0/bin"⟩,
              [.lookup "9.9.9"]) ∧
    parse "/p" "9.9.9" none ⟨["1.0.0"], some "/p/versions/1.0.0/bin"⟩ =
      .ok (⟨["1.0.0"], some "/p/versions/1.0.0/bin"⟩, [.lookup "9.9.9"],
           .notInstalled) :=
  not_installed_rejected "/p" "9.9.9" none
    ⟨["1.0.0"], some "/p/versions/1.0.0/bin"⟩ (by decide) (by decide)

/-- C5: activating an installed version removes the existing active link
strictly before creating the new symlink (see the trace of the second
call), and after `activate v1; activate v2` the link points only at v2's
bin directory. -/
theorem activate_switch (pfx v1 v2 : String) (fs : LinkFS)
    (h1 : v1 ∈ fs.versions) (h2 : v2 ∈ fs.versions)
    (hs1 : v1 ≠ "system") (hs2 : v2 ≠ "system") :
    link_to pfx v1 fs =
      .ok ({ fs with binLink := some (get_version_dir pfx v1 ++ "/bin") },
           .lookup v1 ::
             ((if fs.binLink.isSome then [Ev.unlinkBin] else []) ++
               [.symlinkBin (get_version_dir pfx v1 ++ "/bin")])) ∧
    link_to pfx v2
        { fs with binLink := some (get_version_dir pfx v1 ++ "/bin") } =
      .ok ({ fs with binLink := some (get_version_dir pfx v2 ++ "/bin") },
           [.lookup v2, .unlinkBin,
            .symlinkBin (get_version_dir pfx v2 ++ "/bin")]) := by
  have e1 := version_exists_of_mem h1
  have e2 : version_exists v2
      { fs with binLink := some (get_version_dir pfx v1 ++ "/bin") } = true :=
    version_exists_of_mem h2
  constructor
  · simp [link_to, hs1, e1]
  · simp [link_to, hs2, e2]

/-- Witness for C5: switching from 1.0.0 to 2.0.0. -/
theorem activate_switch_witness :
    link_to "/p" "1.0.0" ⟨["1.0.0", "2.0.0"], none⟩ =
      .ok (⟨["1.0.0", "2.0.0"], some "/p/versions/1.0.0/bin"⟩,
           [.lookup "1.0.0", .symlinkBin "/p/versions/1.0.0/bin"]) ∧
    link_to "/p" "2.0.0" ⟨["1.0.0", "2.0.0"], some "/p/versions/1.0.0/bin"⟩ =
      .ok (⟨["1.0.0", "2.0.0"], some "/p/versions/2.0.0/bin"⟩,
           [.lookup "2.0.0", .unlinkBin,
            .symlinkBin "/p/versions/2.0.0/bin"]) :=
  activate_switch "/p" "1.0.0" "2.0.0" ⟨["1.0.0", "2.0.0"], none⟩
    (by decide) (by decide) (by decide) (by decide)

/-- C1: when the discovered current version equals the version being
removed, remove switches the active link to "system" (the unlink) strictly
before deleting the version directory (the rmtree), as the event order
shows. -/
theorem remove_active_unlink_precedes_rmtree (pfx ver : String)
    (nodeOut : Option String) (fs : LinkFS) (t : String)
    (hcur : current_version nodeOut = .ok ver)
    (hmem : ver ∈ fs.versions)
    (hlink : fs.binLink = some t) :
    remove pfx ver nodeOut fs =
      .ok (⟨fs.versions.erase ver, none⟩,
           [.nodeInvoke, .unlinkBin, .rmtree (get_version_dir pfx ver)]) := by
  have hex : version_exists ver { fs with binLink := none } = true :=
    version_exists_of_mem hmem
  simp [remove, hcur, link_to, hlink, hex]

/-- Witness for C1: node reports v5.10.2 and 5.10.2 is removed. -/
theorem remove_active_unlink_precedes_rmtree_witness :
    remove "/p" "5.10.2" (some "v5.10.2\n")
        ⟨["5.10.2"], some "/p/versions/5.10.2/bin"⟩ =
      .ok (⟨[], none⟩,
           [.nodeInvoke, .unlinkBin, .rmtree "/p/versions/5.10.2"]) :=
  remove_active_unlink_precedes_rmtree "/p" "5.10.2" (some "v5.10.2\n")
    ⟨["5.10.2"], some "/p/versions/5.10.2/bin"⟩ "/p/versions/5.10.2/bin"
    rfl (by decide) rfl

/-- C10: remove always invokes node for version discovery first (the trace
of every successful run starts with the node invocation), and when the
discovery fails — node not invocable, or output not matching
`v<major>.<minor>.<patch>` — remove raises that error with the state
unchanged and no rmtree performed (the trace at the raise is only the node
invocation). -/
theorem remove_discovery_gate (pfx ver : String) (nodeOut : Option String)
    (fs : LinkFS) :
    (∀ e, current_version nodeOut = .error e →
      remove pfx ver nodeOut fs = .error (e, fs, [.nodeInvoke])) ∧
    (∀ fs' tr, remove pfx ver nodeOut fs = .ok (fs', tr) →
      tr.head? = some .nodeInvoke) := by
  constructor
  · intro e he
    simp [remove, he]
  · intro fs' tr h
    unfold remove at h
    cases hc : current_version nodeOut with
    | error e => rw [hc] at h; exact absurd h (by simp)
    | ok cur =>
      simp only [hc] at h
      cases hlt : (if ver = cur then link_to pfx "system" fs
          else .ok (fs, [])) with
      | error p =>
        obtain ⟨e, fs1, tr1⟩ := p
        rw [hlt] at h
        exact absurd h (by simp)
      | ok p =>
        obtain ⟨fs1, tr1⟩ := p
        rw [hlt] at h
        by_cases hex : version_exists ver fs1 = true
        · simp only [hex, if_pos, Except.ok.injEq, Prod.mk.injEq] at h
          obtain ⟨-, htr⟩ := h
          rw [← htr]
          rfl
        · simp only [hex] at h
          exact absurd h (by simp)

/-- Witness for C10: node missing, and node output with no version
pattern. -/
theorem remove_discovery_gate_witness :
    remove "/p" "1.0.0" none ⟨["1.0.0"], none⟩ =
      .error (.osError, ⟨["1.0.0"], none⟩, [.nodeInvoke]) ∧
    remove "/p" "1.0.0" (some "node: bad option") ⟨["1.0.0"], none⟩ =
      .error (.attributeError, ⟨["1.0.0"], none⟩, [.nodeInvoke]) :=
  ⟨(remove_discovery_gate "/p" "1.0.0" none ⟨["1.0.0"], none⟩).1
      .osError rfl,
   (remove_discovery_gate "/p" "1.0.0" (some "node: bad option")
      ⟨["1.0.0"], none⟩).1 .attributeError rfl⟩

/-- C4 counterexample: "abc" fails valid_version_string, yet the remove
command consults the registry with it — the trace of the run records the
version_exists lookup on "abc" — instead of rejecting it beforehand. -/
theorem parse_invalid_consults_registry_cex :
    valid_version_string "abc" = false ∧
    parse "/p" "abc" none ⟨[], none⟩ =
      .ok (⟨[], none⟩, [.lookup "abc"], .notInstalled) :=
  ⟨rfl, rfl⟩

/-- C4 amended: the remove command performs no version-identity validation
at all; for every input string, valid or not, its very first event is the
registry lookup (version_exists on the raw input), and an input naming no
installed version — in particular any malformed one with no directory of
that name — is reported as "not installed" with the state unchanged. -/
theorem parse_always_consults_registry (pfx ver : String)
    (nodeOut : Option String) (fs : LinkFS) :
    (parseTrace pfx ver nodeOut fs).head? = some (.lookup ver) ∧
    (version_exists ver fs = false →
      parse pfx ver nodeOut fs = .ok (fs, [.lookup ver], .notInstalled)) := by
  constructor
  · unfold parseTrace parse
    by_cases hex : version_exists ver fs = true
    · simp only [hex, if_pos]
      cases h : remove pfx ver nodeOut fs with
      | error p => obtain ⟨e, fs1, tr1⟩ := p; rfl
      | ok p => obtain ⟨fs1, tr1⟩ := p; rfl
    · simp only [hex] at *
      simp [hex]
  · intro hex
    simp [parse, hex]

/-- Witness for C4's amended claim on a concrete malformed input. -/
theorem parse_always_consults_registry_witness :
    (parseTrace "/p" "x.y" none ⟨["1.0.0"], none⟩).head? =
      some (.lookup "x.y") ∧
    parse "/p" "x.y" none ⟨["1.0.0"], none⟩ =
      .ok (⟨["1.0.0"], none⟩, [.lookup "x.y"], .notInstalled) :=
  ⟨(parse_always_consults_registry "/p" "x.y" none ⟨["1.0.0"], none⟩).1,
   (parse_always_consults_registry "/p" "x.y" none ⟨["1.0.0"], none⟩).2 rfl⟩

/-- C9 counterexample: a prefix that exists as a regular file is not
deleted — shutil.rmtree raises OSError on a non-directory — so
mknodevers_pfx fails without deleting the prefix or creating any
directory, where the claim promises that a prefix existing "in any form"
is first deleted and the layout then created. -/
theorem mknodevers_pfx_file_cex :
    pathExists ⟨[], [["p"]]⟩ ["p"] = true ∧
    mknodevers_pfx ["p"] ⟨[], [["p"]]⟩ = .error .osError :=
  ⟨rfl, rfl⟩

/-- C9 amended: when mknodevers_pfx succeeds, all four required
subdirectories exist, so valid_nodevers_pfx holds; and when the prefix
previously existed (necessarily as a directory, else rmtree raises and the
call does not succeed), it was recursively deleted first: the only
directories at or under the prefix afterwards are the prefix itself and
the four freshly created subdirectories, and no file at or under the
prefix survives. -/
theorem mknodevers_pfx_valid (path : FPath) (fs fs' : PFS)
    (h : mknodevers_pfx path fs = .ok fs') :
    valid_nodevers_pfx path fs' = true ∧
    (pathExists fs path = true →
      (∀ d ∈ fs'.dirs, (∃ u, path ++ u = d) →
        d ∈ [path, path ++ ["versions"], path ++ ["tmp"],
             path ++ ["patches"], path ++ ["patches", "global"]]) ∧
      (∀ f ∈ fs'.files, ¬∃ u, path ++ u = f)) := by
  unfold mknodevers_pfx at h
  cases h0 : (if pathExists fs path = true then rmtree path fs
      else .ok fs) with
  | error e => rw [h0] at h; cases h
  | ok fs0 =>
    rw [h0] at h
    obtain ⟨hpres, hmem, hfiles, hadd⟩ := makeSubdirs_ok nodeversSubdirs h
    constructor
    · rw [valid_nodevers_pfx, List.all_eq_true]
      intro d hd
      exact List.elem_eq_true_of_mem (hmem d hd)
    · intro hex
      rw [if_pos hex] at h0
      obtain ⟨hd0, hf0⟩ := rmtree_ok h0
      constructor
      · rintro d hd ⟨u, hu⟩
        rcases hadd d hd with hin | ⟨dd, hdd, u2, hu2⟩
        · rw [hd0] at hin
          obtain ⟨-, hpred⟩ := List.mem_filter.mp hin
          rw [Bool.not_eq_true'] at hpred
          have hyes : List.isPrefixOf path d = true :=
            (isPrefixOf_eq_true_iff path d).mpr ⟨u, hu⟩
          rw [hpred] at hyes
          cases hyes
        · subst hu
          rw [List.append_assoc] at hu2
          have hleast := List.append_cancel_left hu2
          simp only [nodeversSubdirs, List.mem_cons, List.not_mem_nil,
            or_false] at hdd
          rcases hdd with rfl | rfl | rfl | rfl
          · rcases append_eq_single hleast with rfl | rfl <;> simp
          · rcases append_eq_single hleast with rfl | rfl <;> simp
          · rcases append_eq_single hleast with rfl | rfl <;> simp
          · rcases append_eq_pair hleast with rfl | rfl | rfl <;> simp
      · rintro f hf ⟨u, hu⟩
        rw [hfiles, hf0] at hf
        obtain ⟨-, hpred⟩ := List.mem_filter.mp hf
        rw [Bool.not_eq_true'] at hpred
        have hyes : List.isPrefixOf path f = true :=
          (isPrefixOf_eq_true_iff path f).mpr ⟨u, hu⟩
        rw [hpred] at hyes
        cases hyes

/-- Witness for C9's amended claim: a prefix directory containing an old
installation is reset to exactly the fresh layout. -/
theorem mknodevers_pfx_valid_witness :
    valid_nodevers_pfx ["p"]
      ⟨[["p", "patches", "global"], ["p", "patches"], ["p", "tmp"],
        ["p", "versions"], ["p"]], []⟩ = true ∧
    ((∀ d ∈ ([["p", "patches", "global"], ["p", "patches"], ["p", "tmp"],
          ["p", "versions"], ["p"]] : List FPath),
        (∃ u, ["p"] ++ u = d) →
        d ∈ [["p"], ["p"] ++ ["versions"], ["p"] ++ ["tmp"],
             ["p"] ++ ["patches"], ["p"] ++ ["patches", "global"]]) ∧
      (∀ f ∈ ([] : List FPath), ¬∃ u, ["p"] ++ u = f)) :=
  ⟨(mknodevers_pfx_valid ["p"]
      ⟨[["p"], ["p", "junk"]], [["p", "junk", "patch1"]]⟩
      ⟨[["p", "patches", "global"], ["p", "patches"], ["p", "tmp"],
        ["p", "versions"], ["p"]], []⟩ rfl).1,
   (mknodevers_pfx_valid ["p"]
      ⟨[["p"], ["p", "junk"]], [["p", "junk", "patch1"]]⟩
      ⟨[["p", "patches", "global"], ["p", "patches"], ["p", "tmp"],
        ["p", "versions"], ["p"]], []⟩ rfl).2 rfl⟩

/-- C8: the patch list is the non-directory entries of the global patch
directory (listed unconditionally) followed by, exactly when the
version-specific patch directory exists, its non-directory entries; the
append puts every global patch before every version-specific one. -/
theorem get_patches_list_global_first (pfx ver : String) (w : PatchWorld)
    (ges : List (String × Bool))
    (hg : w.listing (get_patches_dir pfx ++ "/global") = some ges) :
    get_patches_list pfx ver w = .ok (
      (ges.filter (fun e => !e.2)).map
        (fun e => get_patches_dir pfx ++ "/global" ++ "/" ++ e.1) ++
      (match w.listing (get_patches_dir pfx ++ "/" ++ ver) with
       | none => []
       | some ves => (ves.filter (fun e => !e.2)).map
           (fun e => get_patches_dir pfx ++ "/" ++ ver ++ "/" ++ e.1))) := by
  simp only [get_patches_list, hg]
  cases hv : w.listing (get_patches_dir pfx ++ "/" ++ ver) <;> simp [hv]

/-- Witness for C8, realising the spec's scenario: global patches a, b and
version patch c for 5.10.2 yield the order a, b, c. -/
theorem get_patches_list_global_first_witness :
    get_patches_list "/p" "5.10.2"
        ⟨fun d => if d = "/p/patches/global" then
            some [("a", false), ("b", false)]
          else if d = "/p/patches/5.10.2" then some [("c", false)]
          else none⟩ =
      .ok ["/p/patches/global/a", "/p/patches/global/b",
           "/p/patches/5.10.2/c"] :=
  get_patches_list_global_first "/p" "5.10.2" _ [("a", false), ("b", false)]
    rfl

end Nodevers
